import Mathlib

/-!
Verification of the EduLearn assessment platform's core logic against its
specification.  Strings are modelled as lists of characters; the client-side
functions of `src/utils/codingLabService.ts`, `src/components/TestTaking.tsx`
and the (spec-modelled) `src/utils/testTimer.ts` / `src/utils/autoGrading.ts`
collaborators are embedded as pure Lean functions, and the stateful timer and
autosave effects as explicit step functions on small state records.
-/

namespace EduLearn

/-- Strings are modelled as lists of characters. -/
abbrev Str := List Char

/-- Whitespace recognised by JavaScript's `String.prototype.trim` (the core
characters that occur in program output: space, tab, newline, carriage
return). -/
def isWS (c : Char) : Bool :=
  c == ' ' || c == '\t' || c == '\n' || c == '\r'

/-- Drop leading whitespace, as the front half of `trim`. -/
def trimStart (s : Str) : Str := s.dropWhile isWS

/-- Drop trailing whitespace, as the back half of `trim`. -/
def trimEnd (s : Str) : Str := (s.reverse.dropWhile isWS).reverse

/-- JavaScript `String.prototype.trim`: remove leading and trailing
whitespace. -/
def trim (s : Str) : Str := trimEnd (trimStart s)

/-- Embedding of `PistonService.normalizeOutput`
(`src/utils/codingLabService.ts` lines 211-218): trim the output, split it
into lines, trim every line, drop the blank lines and rejoin with a single
newline. -/
def normalizeOutput (s : Str) : Str :=
  List.intercalate ['\n']
    ((((trim s).splitOn '\n').map trim).filter (fun l => decide (l ≠ [])))

/-- The list of trimmed, non-blank lines that `normalizeOutput` joins. -/
def normalizedPieces (s : Str) : List Str :=
  (((trim s).splitOn '\n').map trim).filter (fun l => decide (l ≠ []))

/-! Coding-lab grading model, embedded from `src/utils/codingLabService.ts`.
The remote runner (the Piston API) is abstracted as an oracle
`runner : Str → RunOutput` mapping the stdin sent for the student's fixed
code and language to the report the runner returns. -/

/-- The values of `ExecutionResult.status`. -/
inductive ExecStatus
  | success
  | error
  | runtimeError
  | timeout
  | testFailed
deriving DecidableEq

/-- The fields of the runner's report that the grading logic reads
(`data.run.stdout`, `data.run.stderr`, `data.run.code`). -/
structure RunOutput where
  stdout : Str
  stderr : Str
  exitCode : Int
deriving DecidableEq

/-- Embedding of `ExecutionResult` (the fields the grading logic computes;
the wall-clock `executionTime` and constant `memoryUsed` are not
modelled). -/
structure ExecutionResult where
  status : ExecStatus
  output : Str
  error : Option Str
  testsPassed : Nat
  totalTests : Nat
  expectedOutput : Str
  actualOutput : Str
deriving DecidableEq

/-- Embedding of `PistonService.execute` (`codingLabService.ts` lines
220-316).  `expectedOutput = []` models a missing or empty expected output
(both are falsy in JavaScript).  The catch path (a failed request) produces
the same `error`-status, zero-tests shape as an error report and is subsumed
by it. -/
def execute (run : RunOutput) (expectedOutput : Str) : ExecutionResult :=
  let stdout := run.stdout
  let stderr := run.stderr
  let exitCode := run.exitCode
  let normalizedActualOutput := normalizeOutput stdout
  let normalizedExpectedOutput :=
    if expectedOutput ≠ [] then normalizeOutput expectedOutput else []
  if exitCode ≠ 0 ∨ stderr ≠ [] then
    { status := ExecStatus.error
      output := trim stdout
      error := some (if trim stderr = [] then ("Execution failed").toList else trim stderr)
      testsPassed := 0
      totalTests := 1
      expectedOutput := normalizedExpectedOutput
      actualOutput := normalizedActualOutput }
  else if expectedOutput ≠ [] ∧ normalizedActualOutput ≠ normalizedExpectedOutput then
    { status := ExecStatus.testFailed
      output := trim stdout
      error := some (("Output mismatch!\nExpected: ").toList ++
        normalizedExpectedOutput ++ ("\nGot: ").toList ++ normalizedActualOutput)
      testsPassed := 0
      totalTests := 1
      expectedOutput := normalizedExpectedOutput
      actualOutput := normalizedActualOutput }
  else
    { status := ExecStatus.success
      output := trim stdout
      error := none
      testsPassed := 1
      totalTests := 1
      expectedOutput := normalizedExpectedOutput
      actualOutput := normalizedActualOutput }

/-- A row of `hidden_test_cases`. -/
structure HiddenTestCase where
  test_number : Nat
  input : Str
  expected_output : Str
  is_active : Bool
deriving DecidableEq

/-- Embedding of `CodingLabDatabaseService.getHiddenTests`: the stored rows
restricted to active ones (the query filters on `is_active = true`). -/
def getHiddenTests (table : List HiddenTestCase) : List HiddenTestCase :=
  table.filter (fun t => t.is_active)

/-- One hidden test passes when its execution has status `success` and
`testsPassed = 1` (`runHiddenTests`, line 408). -/
def hiddenPass (runner : Str → RunOutput) (t : HiddenTestCase) : Bool :=
  let r := execute (runner t.input) t.expected_output
  decide (r.status = ExecStatus.success) && decide (r.testsPassed = 1)

/-- Embedding of `runHiddenTests` (lines 373-438): the pair of the number of
passing hidden tests and the total count. -/
def runHiddenTests (runner : Str → RunOutput) (ts : List HiddenTestCase) :
    Nat × Nat :=
  (ts.countP (hiddenPass runner), ts.length)

/-- The sample-test fields of a `coding_questions` row. -/
structure CodingQuestion where
  sample_input : Str
  sample_output : Str
deriving DecidableEq

/-- The values of `CodingSubmission.status`. -/
inductive CodingSubmissionStatus
  | accepted
  | error
  | pending
deriving DecidableEq

/-- The grading fields of the persisted `coding_submissions` row. -/
structure CodingSubmissionRow where
  status : CodingSubmissionStatus
  tests_passed : Nat
  total_tests : Nat
  output : Str
  error_message : Option Str
deriving DecidableEq

/-- The stdin used for the sample execution in `executeAndSaveCode` (lines
458-464): the sample input when both sample fields are non-empty, else the
empty string. -/
def sampleStdin (q : CodingQuestion) : Str :=
  if q.sample_input ≠ [] ∧ q.sample_output ≠ [] then q.sample_input else []

/-- The sample-test execution performed by `executeAndSaveCode` (line
468). -/
def sampleExecResult (runner : Str → RunOutput) (q : CodingQuestion) :
    ExecutionResult :=
  execute (runner (sampleStdin q)) q.sample_output

/-- The hidden tests `executeAndSaveCode` actually executes: they are fetched
and run only when the sample test passed (line 483). -/
def hiddenTestsExecuted (runner : Str → RunOutput) (q : CodingQuestion)
    (table : List HiddenTestCase) : List HiddenTestCase :=
  if (sampleExecResult runner q).testsPassed = 1 then getHiddenTests table
  else []

/-- Embedding of `executeAndSaveCode` (lines 444-526): run the sample test,
then — only if it passed — the active hidden tests, and persist a submission
row whose status is `accepted` or `error`. -/
def executeAndSaveCode (runner : Str → RunOutput) (q : CodingQuestion)
    (table : List HiddenTestCase) : CodingSubmissionRow :=
  let result := sampleExecResult runner q
  let finalStatus :=
    if result.status = ExecStatus.success then CodingSubmissionStatus.accepted
    else CodingSubmissionStatus.error
  if result.testsPassed = 1 then
    let hiddenTests := getHiddenTests table
    if 0 < hiddenTests.length then
      let hp := (runHiddenTests runner hiddenTests).1
      let ht := (runHiddenTests runner hiddenTests).2
      if hp = ht then
        ⟨CodingSubmissionStatus.accepted, 1 + hp, 1 + ht, result.output, result.error⟩
      else
        ⟨CodingSubmissionStatus.error, 1 + hp, 1 + ht, result.output, result.error⟩
    else ⟨finalStatus, result.testsPassed, 1, result.output, result.error⟩
  else ⟨finalStatus, result.testsPassed, 1, result.output, result.error⟩

/-- A runner report oracle that echoes its stdin with a clean exit, used for
concrete evaluations. -/
def runnerEcho : Str → RunOutput := fun stdin => ⟨stdin, [], 0⟩

/-- A concrete coding question whose sample test the echo runner passes. -/
def qSample : CodingQuestion := ⟨['1'], ['1']⟩

/-- A concrete hidden-test table with one active and one inactive row. -/
def hiddenTableEx : List HiddenTestCase :=
  [⟨1, ['2'], ['2'], true⟩, ⟨2, ['3'], ['4'], false⟩]

/-! Test-session model.  `src/utils/testTimer.ts` and
`src/utils/autoGrading.ts` are not among the sources (only their callers
are), so the functions below whose doc comments begin "Modelled from the
spec" follow the specification's description of them; the decision logic of
`TestTaking.tsx` (`initializeTest`, `submitTest`, the countdown and autosave
effects) is embedded from the source. -/

/-- The values of `TestSession.status`. -/
inductive SessionStatus
  | inProgress
  | completed
  | locked
deriving DecidableEq

/-- The timing and locking fields of a test-session row; timestamps are
epoch seconds. -/
structure TestSession where
  id : Nat
  startedAt : Int
  durationSeconds : Int
  status : SessionStatus
  lockedBySubmissionId : Option Nat
deriving DecidableEq

/-- Modelled from the spec: `calculateRemainingTime` of
`src/utils/testTimer.ts` is missing from the sources; per the spec it is
`remaining = max(0, durationSeconds - (now - startedAt))`, a pure function
of the stored session and the current time that never mutates the
session. -/
def calculateRemainingTime (s : TestSession) (now : Int) : Int :=
  max 0 (s.durationSeconds - (now - s.startedAt))

/-- Outcomes of the re-entry decision in `initializeTest`.  The last two
constructors are the outcomes the specification's re-entry guard calls for;
the embedded code never produces them. -/
inductive InitOutcome
  | enterTest
  | showExpired
  | redirectToResults (submissionId : Nat)
  | autoSubmitNow
deriving DecidableEq

/-- Embedding of the re-entry decision of `initializeTest`
(`TestTaking.tsx` lines 192-217) on the happy path (assessment and
questions fetched, session fetched or created): compute the remaining time
and either mark the view time-expired (editing disabled; no submit and no
redirect happen) or enter the editing view.  The session's status and
`lockedBySubmissionId` are never inspected. -/
def initializeTestOutcome (s : TestSession) (now : Int) : InitOutcome :=
  if calculateRemainingTime s now ≤ 0 then InitOutcome.showExpired
  else InitOutcome.enterTest

/-- The re-entry property C1 claims for `initializeTest`, stated over the
embedded outcome: a locked session redirects to the results view for
`lockedBySubmissionId`, and an in-progress session with no remaining time
triggers auto-submit. -/
def reentryGuardClaim : Prop :=
  ∀ (s : TestSession) (now : Int),
    (s.status = SessionStatus.locked →
      ∃ i, s.lockedBySubmissionId = some i ∧
        initializeTestOutcome s now = InitOutcome.redirectToResults i) ∧
    (s.status = SessionStatus.inProgress → calculateRemainingTime s now = 0 →
      initializeTestOutcome s now = InitOutcome.autoSubmitNow)

/-- A locked session that still has remaining time (its student submitted
early), re-entered at `now = 10`. -/
def lockedSessionEx : TestSession := ⟨1, 0, 3600, SessionStatus.locked, some 7⟩

/-- An in-progress session whose time has fully elapsed by `now = 9000`. -/
def expiredSessionEx : TestSession := ⟨2, 0, 3600, SessionStatus.inProgress, none⟩

/-- The values of `Question.type` relevant to grading. -/
inductive QuestionType
  | MCQ
  | Theory
deriving DecidableEq

/-- The grading fields of a question row. -/
structure Question where
  id : Nat
  type : QuestionType
  marks : Nat
  correct_answer : Str
deriving DecidableEq

/-- Modelled from the spec: `autoGradeMCQ` of `src/utils/autoGrading.ts` is
missing from the sources; per the spec it scores objective (MCQ) answers
against the stored correct-answer keys and sums the raw marks, while
non-objective questions contribute no automatic score. -/
def autoGradeMCQ (questions : List Question) (answers : Nat → Option Str) : Nat :=
  (questions.map (fun q =>
    if q.type = QuestionType.MCQ ∧ answers q.id = some q.correct_answer
    then q.marks else 0)).sum

/-- JavaScript `Math.round` on the non-negative rationals that arise here:
round half up. -/
def jsRound (x : ℚ) : ℤ := Int.floor (x + 1 / 2)

/-- The total possible marks across the assessment's questions
(`questions.reduce((sum, q) => sum + q.marks, 0)`, `TestTaking.tsx` line
440). -/
def totalMarksOf (questions : List Question) : Nat :=
  (questions.map (fun q => q.marks)).sum

/-- The grading fields of the submissions row persisted by `submitTest`. -/
structure SubmissionRow where
  mcq_score : Nat
  total_score : Int
  is_auto_submitted : Bool
deriving DecidableEq

/-- Embedding of the scoring step of `submitTest` (`TestTaking.tsx` lines
438-457): compute the MCQ raw score, the total possible marks, the rounded
percentage (0 when the total is 0), and persist them together with the
auto-submit flag. -/
def submitTestSubmissionRow (questions : List Question)
    (answers : Nat → Option Str) (isAutoSubmit : Bool) : SubmissionRow :=
  let mcqScore := autoGradeMCQ questions answers
  let totalMarks := totalMarksOf questions
  let percentageScore : Int :=
    if 0 < totalMarks then jsRound ((mcqScore : ℚ) / (totalMarks : ℚ) * 100)
    else 0
  ⟨mcqScore, percentageScore, isAutoSubmit⟩

/-- The spec's end-to-end scenario: two 1-mark MCQ questions with correct
answers "A" and "B". -/
def twoMcqQuestions : List Question :=
  [⟨1, QuestionType.MCQ, 1, ['A']⟩, ⟨2, QuestionType.MCQ, 1, ['B']⟩]

/-- The spec's end-to-end scenario: only question 1 answered, correctly. -/
def oneCorrectAnswers : Nat → Option Str :=
  fun i => if i = 1 then some ['A'] else none

/-- The five steps of the submission finaliser, in source order. -/
inductive StepName
  | complete
  | score
  | insertSub
  | lockStep
  | deleteDraft
deriving DecidableEq

/-- The store operations `submitTest` sequences.  `completeTestSession`,
`lockTestSession` and `deleteDraftAnswers` live in the missing
`testTimer.ts` and are kept abstract as fallible operations on an abstract
persistent state, per the spec's store contracts; `insertSubmission` is the
submissions-row insert and returns the created submission id; scoring is the
pure step 2. -/
structure SubmitOps (σ : Type) where
  completeSession : σ → Except Str σ
  scoreAnswers : σ → σ
  insertSubmission : σ → Except Str (σ × Nat)
  lockSession : Nat → σ → Except Str σ
  deleteDrafts : σ → Except Str σ

/-- Embedding of the control flow of `submitTest` (`TestTaking.tsx` lines
426-506): the five steps run sequentially inside one try block, each awaited
before the next starts; any failure aborts the remaining steps and the catch
surfaces the error; the state reached by the last successful step is kept
(no rollback).  The trace lists the steps that started; an error result
carries the surfaced message and the state produced by the last successful
step; locking receives the submission id returned by the insert. -/
def submitTestFlow {σ : Type} (ops : SubmitOps σ) (s0 : σ) :
    List StepName × Except (Str × σ) (σ × Nat) :=
  match ops.completeSession s0 with
  | Except.error e => ([StepName.complete], Except.error (e, s0))
  | Except.ok s1 =>
    let s2 := ops.scoreAnswers s1
    match ops.insertSubmission s2 with
    | Except.error e =>
      ([StepName.complete, StepName.score, StepName.insertSub],
        Except.error (e, s2))
    | Except.ok (s3, subId) =>
      match ops.lockSession subId s3 with
      | Except.error e =>
        ([StepName.complete, StepName.score, StepName.insertSub,
          StepName.lockStep], Except.error (e, s3))
      | Except.ok s4 =>
        match ops.deleteDrafts s4 with
        | Except.error e =>
          ([StepName.complete, StepName.score, StepName.insertSub,
            StepName.lockStep, StepName.deleteDraft], Except.error (e, s4))
        | Except.ok s5 =>
          ([StepName.complete, StepName.score, StepName.insertSub,
            StepName.lockStep, StepName.deleteDraft], Except.ok (s5, subId))

/-- A concrete all-succeeding instance of the five store operations over
state `Nat`, for concrete evaluations. -/
def opsOkEx : SubmitOps Nat :=
  ⟨fun s => Except.ok (s + 1), fun s => s + 10,
    fun s => Except.ok (s + 100, 7), fun i s => Except.ok (s + 1000 + i),
    fun s => Except.ok (s + 10000)⟩

/-- The same instance with a failing lock step. -/
def opsLockFailEx : SubmitOps Nat :=
  { opsOkEx with lockSession := fun _ _ => Except.error ['L'] }

/-- The component state read and written by the countdown effect of
`TestTaking.tsx`: whether an interval is registered, the `isTimeExpired` and
`submitting` flags, and how often auto-submit has been invoked. -/
structure TimerState where
  timerActive : Bool
  isTimeExpired : Bool
  submitting : Bool
  autoSubmitCount : Nat
deriving DecidableEq

/-- Events of the countdown system: a re-evaluation of the countdown effect,
an interval callback with a `calculateRemainingTime` reading, and the
`finally` of `submitTest` clearing `submitting`. -/
inductive TimerEvent
  | effectRun
  | tick (remaining : Int)
  | submitSettled
deriving DecidableEq

/-- Embedding of the countdown logic of `TestTaking.tsx`.  `effectRun`
re-evaluates the countdown effect (lines 292-333): the cleanup clears any
registered interval and a new one is registered only under the guard
`!isTimeExpired && !submitting` (line 293; the `submitting` conjunct is the
local submission-in-flight guard).  `tick r` is the interval callback (lines
295-330): on `r ≤ 0` it clears its interval, marks the time expired and
invokes `handleAutoSubmit` → `submitTest(true)`, which sets `submitting`
(line 430); a cleared or unregistered interval no longer ticks.
`submitSettled` is the `finally` of `submitTest` (line 504). -/
def timerStep (st : TimerState) : TimerEvent → TimerState
  | TimerEvent.effectRun =>
    { st with timerActive := !st.isTimeExpired && !st.submitting }
  | TimerEvent.tick r =>
    if st.timerActive then
      if r ≤ 0 then
        { st with
            timerActive := false
            isTimeExpired := true
            submitting := true
            autoSubmitCount := st.autoSubmitCount + 1 }
      else st
    else st
  | TimerEvent.submitSettled => { st with submitting := false }

/-- The state after `initializeTest` found remaining time: no interval yet,
nothing expired, not submitting, no auto-submit. -/
def initialTimerState : TimerState := ⟨false, false, false, 0⟩

/-- Run the countdown system over a sequence of events. -/
def runTimer (evs : List TimerEvent) : TimerState :=
  evs.foldl timerStep initialTimerState

/-- The invariant of the countdown system: at most one auto-submit, a
registered interval implies the time is not marked expired, and before
expiry no auto-submit has happened. -/
def TimerInv (st : TimerState) : Prop :=
  st.autoSubmitCount ≤ 1
  ∧ (st.timerActive = true → st.isTimeExpired = false)
  ∧ (st.isTimeExpired = false → st.autoSubmitCount = 0)

/-- The component state read and written by the auto-save effect of
`TestTaking.tsx`: whether a save interval is registered, the in-memory
answer mapping, the `submitting` flag, and the log of persisted wholesale
snapshots (most recent first). -/
structure SaveState where
  intervalActive : Bool
  answers : List (Nat × Str)
  submitting : Bool
  saves : List (List (Nat × Str))
deriving DecidableEq

/-- Embedding of the auto-save effect body (`TestTaking.tsx` lines 339-355):
the cleanup clears the pending interval; under the guard
`testSession && !submitting && answers nonempty` the full current mapping is
persisted immediately and a fresh 5-second interval registered. -/
def saveEffect (st : SaveState) : SaveState :=
  let st1 : SaveState := { st with intervalActive := false }
  if st1.submitting ∨ st1.answers = [] then st1
  else { st1 with saves := st1.answers :: st1.saves, intervalActive := true }

/-- Events of the auto-save system.  React re-evaluates the effect whenever
its dependencies `answers` or `submitting` change, which the first three
events model atomically together with the triggering change;  `tick` is the
interval callback saving the captured full mapping. -/
inductive SaveEvent
  | answersChanged (m : List (Nat × Str))
  | submitStart
  | submitSettled
  | tick
deriving DecidableEq

/-- One step of the auto-save system. -/
def saveStep (st : SaveState) : SaveEvent → SaveState
  | SaveEvent.answersChanged m => saveEffect { st with answers := m }
  | SaveEvent.submitStart => saveEffect { st with submitting := true }
  | SaveEvent.submitSettled => saveEffect { st with submitting := false }
  | SaveEvent.tick =>
    if st.intervalActive then { st with saves := st.answers :: st.saves }
    else st

/-- The state right after `initializeTest` with no draft answers. -/
def initialSaveState : SaveState := ⟨false, [], false, []⟩

/-- Run the auto-save system over a sequence of events. -/
def runSave (evs : List SaveEvent) : SaveState :=
  evs.foldl saveStep initialSaveState

/-- The auto-save interval period in milliseconds (`TestTaking.tsx` line
351). -/
def autoSaveIntervalMillis : Nat := 5000

/-- The invariant of the auto-save system: a registered save interval
implies no submission is in flight, so no interval save can race with the
finaliser's draft deletion. -/
def SaveInv (st : SaveState) : Prop :=
  st.intervalActive = true → st.submitting = false

/-- A save state with a registered interval and one answered question. -/
def sTickEx : SaveState := ⟨true, [(1, ['A'])], false, []⟩

/-! Basic lemmas about `dropWhile` used to reason about `trim`. -/

theorem dropWhile_idem (p : Char → Bool) :
    ∀ l : Str, (l.dropWhile p).dropWhile p = l.dropWhile p
  | [] => rfl
  | a :: l => by
    by_cases h : p a
    · simp [List.dropWhile_cons, h, dropWhile_idem p l]
    · simp [List.dropWhile_cons, h]

theorem head_dropWhile_false (p : Char → Bool) :
    ∀ l : Str, ∀ a ∈ (l.dropWhile p).head?, p a = false
  | [], a => by simp
  | b :: l, a => by
    by_cases h : p b
    · simpa [List.dropWhile_cons, h] using head_dropWhile_false p l a
    · simp [List.dropWhile_cons, h]
      intro ha; subst ha; simpa using h

theorem dropWhile_eq_self_of_head (p : Char → Bool) (l : Str)
    (h : ∀ a ∈ l.head?, p a = false) : l.dropWhile p = l := by
  cases l with
  | nil => rfl
  | cons a t =>
    have := h a (by simp)
    simp [List.dropWhile_cons, this]

theorem length_dropWhile_le (p : Char → Bool) :
    ∀ l : Str, (l.dropWhile p).length ≤ l.length
  | [] => le_refl _
  | a :: l => by
    by_cases h : p a
    · simp only [List.dropWhile_cons, h, if_true, List.length_cons]
      exact le_trans (length_dropWhile_le p l) (Nat.le_succ _)
    · simp [List.dropWhile_cons, h]

theorem dropWhile_eq_self_of_length (p : Char → Bool) :
    ∀ l : Str, (l.dropWhile p).length = l.length → l.dropWhile p = l
  | [], _ => rfl
  | a :: l, h => by
    by_cases hp : p a
    · exfalso
      simp only [List.dropWhile_cons, hp, if_true, List.length_cons] at h
      have := length_dropWhile_le p l
      omega
    · simp [List.dropWhile_cons, hp]

theorem dropWhile_append_all (p : Char → Bool) :
    ∀ xs ys : Str, (∀ a ∈ xs, p a = true) →
      (xs ++ ys).dropWhile p = ys.dropWhile p
  | [], ys, _ => rfl
  | a :: xs, ys, h => by
    have ha := h a (by simp)
    simp only [List.cons_append, List.dropWhile_cons, ha, if_true]
    exact dropWhile_append_all p xs ys (fun b hb => h b (by simp [hb]))

theorem dropWhile_append_of_ne_nil (p : Char → Bool) :
    ∀ xs ys : Str, xs.dropWhile p ≠ [] →
      (xs ++ ys).dropWhile p = xs.dropWhile p ++ ys
  | [], _, h => absurd rfl h
  | a :: xs, ys, h => by
    by_cases hp : p a
    · rw [List.cons_append]
      simp only [List.dropWhile_cons, hp, if_true] at h ⊢
      exact dropWhile_append_of_ne_nil p xs ys h
    · simp [List.dropWhile_cons, hp]

theorem mem_of_mem_dropWhile (p : Char → Bool) :
    ∀ l : Str, ∀ a, a ∈ l.dropWhile p → a ∈ l
  | [], a, h => by simp at h
  | b :: l, a, h => by
    by_cases hp : p b
    · simp only [List.dropWhile_cons, hp, if_true] at h
      exact List.mem_cons_of_mem _ (mem_of_mem_dropWhile p l a h)
    · simpa [List.dropWhile_cons, hp] using h

/-- The last character survives `dropWhile` as long as anything survives:
the reversed result has the same head as the reversed input. -/
theorem head_reverse_dropWhile (p : Char → Bool) :
    ∀ l : Str, l.dropWhile p ≠ [] →
      (l.dropWhile p).reverse.head? = l.reverse.head?
  | [], h => absurd rfl h
  | a :: l, h => by
    by_cases hp : p a
    · simp only [List.dropWhile_cons, hp, if_true] at h ⊢
      have hl : l ≠ [] := by
        intro hnil; exact h (by simp [hnil])
      rw [head_reverse_dropWhile p l h]
      have : l.reverse ≠ [] := by simpa using hl
      cases hrev : l.reverse with
      | nil => exact absurd hrev this
      | cons b t => simp [List.reverse_cons, hrev]
    · simp [List.dropWhile_cons, hp]

/-! Lemmas about `trim`. -/

theorem trimStart_eq_of_trim_eq {m : Str} (h : trim m = m) : trimStart m = m := by
  have h1 : (trimStart m).length ≤ m.length := length_dropWhile_le _ m
  have h2 : m.length ≤ (trimStart m).length := by
    conv_lhs => rw [← h]
    calc (trim m).length = ((trimStart m).reverse.dropWhile isWS).length := by
          simp [trim, trimEnd]
      _ ≤ (trimStart m).reverse.length := length_dropWhile_le _ _
      _ = (trimStart m).length := by simp
  exact dropWhile_eq_self_of_length isWS m (le_antisymm h1 h2)

theorem trimEnd_eq_of_trim_eq {m : Str} (h : trim m = m) : trimEnd m = m := by
  have hs := trimStart_eq_of_trim_eq h
  calc trimEnd m = trimEnd (trimStart m) := by rw [hs]
    _ = m := h

theorem head_false_of_trim_eq {b : Char} {t : Str} (h : trim (b :: t) = b :: t) :
    isWS b = false := by
  have hs : (b :: t).dropWhile isWS = b :: t := trimStart_eq_of_trim_eq h
  by_contra hw
  have hw' : isWS b = true := by
    cases hws : isWS b
    · exact absurd hws hw
    · rfl
  have hlen := length_dropWhile_le isWS t
  simp only [List.dropWhile_cons, hw', if_true] at hs
  have : (t.dropWhile isWS).length = t.length + 1 := by rw [hs]; simp
  omega

theorem last_false_of_trim_eq {m : Str} {b : Char} {t : Str} (h : trim m = m)
    (hrev : m.reverse = b :: t) : isWS b = false := by
  have he : trimEnd m = m := trimEnd_eq_of_trim_eq h
  have hds : m.reverse.dropWhile isWS = m.reverse := by
    have := congrArg List.reverse he
    simpa [trimEnd] using this
  rw [hrev] at hds
  by_contra hw
  have hw' : isWS b = true := by
    cases hws : isWS b
    · exact absurd hws hw
    · rfl
  have hlen := length_dropWhile_le isWS t
  simp only [List.dropWhile_cons, hw', if_true] at hds
  have : (t.dropWhile isWS).length = t.length + 1 := by rw [hds]; simp
  omega

theorem trim_eq_self_of_ends (m : Str)
    (h1 : ∀ a ∈ m.head?, isWS a = false)
    (h2 : ∀ a ∈ m.reverse.head?, isWS a = false) : trim m = m := by
  have hs : trimStart m = m := dropWhile_eq_self_of_head isWS m h1
  have he : m.reverse.dropWhile isWS = m.reverse :=
    dropWhile_eq_self_of_head isWS m.reverse h2
  simp [trim, hs, trimEnd, he]

theorem trim_idem (s : Str) : trim (trim s) = trim s := by
  by_cases h : trim s = []
  · rw [h]; rfl
  · apply trim_eq_self_of_ends
    · -- the head of `trim s` is the head of the reversed back-trim result
      intro a ha
      have hz : (trimStart s).reverse.dropWhile isWS ≠ [] := by
        intro hz
        exact h (by simp [trim, trimEnd, hz])
      have hkey := head_reverse_dropWhile isWS (trimStart s).reverse hz
      have hrr : ((trimStart s).reverse.dropWhile isWS).reverse.head?
          = (trimStart s).head? := by
        rw [hkey]; simp
      have ha' : a ∈ (trimStart s).head? := by
        have : (trim s).head? = (trimStart s).head? := by
          simpa [trim, trimEnd] using hrr
        rw [← this]; exact ha
      exact head_dropWhile_false isWS s a ha'
    · intro a ha
      have : (trim s).reverse = (trimStart s).reverse.dropWhile isWS := by
        simp [trim, trimEnd]
      rw [this] at ha
      exact head_dropWhile_false isWS (trimStart s).reverse a ha

theorem mem_of_mem_trim {m : Str} {a : Char} (h : a ∈ trim m) : a ∈ m := by
  simp only [trim, trimEnd, trimStart, List.mem_reverse] at h
  have h1 := mem_of_mem_dropWhile isWS _ a h
  rw [List.mem_reverse] at h1
  exact mem_of_mem_dropWhile isWS m a h1

theorem trim_append_ws (s t : Str) (ht : ∀ c ∈ t, isWS c = true) :
    trim (s ++ t) = trim s := by
  by_cases hs : trimStart s = []
  · have hall : ∀ c ∈ s, isWS c = true := by
      simpa [trimStart, List.dropWhile_eq_nil_iff] using hs
    have : trimStart (s ++ t) = [] := by
      simp only [trimStart, List.dropWhile_eq_nil_iff]
      intro c hc
      rcases List.mem_append.mp hc with h | h
      · exact hall c h
      · exact ht c h
    rw [trim, trim, this, hs]
  · have hsp : trimStart (s ++ t) = trimStart s ++ t :=
      dropWhile_append_of_ne_nil isWS s t hs
    rw [trim, trim, hsp]
    show trimEnd (trimStart s ++ t) = trimEnd (trimStart s)
    simp only [trimEnd, List.reverse_append]
    rw [dropWhile_append_all isWS t.reverse (trimStart s).reverse
      (fun c hc => ht c (by simpa using hc))]

/-! Lemmas about `splitOn` and `intercalate` needed for the normalisation
proofs. -/

theorem bool_false_of_not_true {b : Bool} (h : ¬ b = true) : b = false := by
  cases b
  · rfl
  · exact absurd rfl h

theorem splitOnP_forall_not (p : Char → Bool) :
    ∀ xs : Str, ∀ l ∈ xs.splitOnP p, ∀ a ∈ l, p a = false
  | [] => by
    intro l hl a ha
    rw [List.splitOnP_nil] at hl
    simp only [List.mem_singleton] at hl
    subst hl
    simp at ha
  | x :: xs => by
    intro l hl a ha
    rw [List.splitOnP_cons] at hl
    by_cases hx : p x = true
    · rw [if_pos hx] at hl
      rcases List.mem_cons.mp hl with h | h
      · subst h; simp at ha
      · exact splitOnP_forall_not p xs l h a ha
    · rw [if_neg hx] at hl
      have hx' : p x = false := bool_false_of_not_true hx
      cases hsp : xs.splitOnP p with
      | nil => exact absurd hsp (List.splitOnP_ne_nil p xs)
      | cons hd tl =>
        rw [hsp, List.modifyHead_cons] at hl
        rcases List.mem_cons.mp hl with h | h
        · subst h
          rcases List.mem_cons.mp ha with h' | h'
          · subst h'; exact hx'
          · exact splitOnP_forall_not p xs hd (hsp ▸ List.mem_cons_self hd tl) a h'
        · exact splitOnP_forall_not p xs l (hsp ▸ List.mem_cons_of_mem hd h) a ha

theorem mem_splitOn_not_mem (x : Char) (xs : Str) :
    ∀ l ∈ xs.splitOn x, x ∉ l := by
  intro l hl hx
  have := splitOnP_forall_not (· == x) xs l hl x hx
  simp at this

theorem intercalate_two (sep x y : Str) (ys : List Str) :
    List.intercalate sep (x :: y :: ys) = x ++ sep ++ List.intercalate sep (y :: ys) := by
  simp [List.intercalate, List.intersperse_cons_cons]

theorem intercalate_single (sep x : Str) : List.intercalate sep [x] = x := by
  simp [List.intercalate]

theorem intercalate_ne_nil_of_head (sep m : Str) (M : List Str) (hm : m ≠ []) :
    List.intercalate sep (m :: M) ≠ [] := by
  cases M with
  | nil => rw [intercalate_single]; exact hm
  | cons y ys =>
    rw [intercalate_two]
    cases m with
    | nil => exact absurd rfl hm
    | cons a t => simp

theorem head?_append_left (xs zs : Str) (h : xs ≠ []) :
    (xs ++ zs).head? = xs.head? := by
  cases xs with
  | nil => exact absurd rfl h
  | cons a t => rfl

theorem head?_intercalate (sep : Str) (a : Char) (t : Str) (M : List Str) :
    (List.intercalate sep ((a :: t) :: M)).head? = some a := by
  cases M with
  | nil => rw [intercalate_single]; rfl
  | cons y ys => rw [intercalate_two]; rfl

theorem head_reverse_intercalate :
    ∀ (M : List Str), (∀ m ∈ M, m ≠ []) → M ≠ [] →
      ∃ mlast ∈ M, (List.intercalate ['\n'] M).reverse.head? = mlast.reverse.head?
  | [], _, hne => absurd rfl hne
  | [m], _, _ => ⟨m, List.mem_singleton_self m, by rw [intercalate_single]⟩
  | m :: y :: ys, h, _ => by
    obtain ⟨mlast, hmem, hh⟩ :=
      head_reverse_intercalate (y :: ys)
        (fun z hz => h z (List.mem_cons_of_mem m hz)) (by simp)
    refine ⟨mlast, List.mem_cons_of_mem m hmem, ?_⟩
    rw [intercalate_two]
    have hr : List.intercalate ['\n'] (y :: ys) ≠ [] :=
      intercalate_ne_nil_of_head ['\n'] y ys (h y (by simp))
    have hrrev : (List.intercalate ['\n'] (y :: ys)).reverse ≠ [] := by
      simpa using hr
    rw [List.reverse_append, List.reverse_append]
    rw [head?_append_left _ _ hrrev]
    exact hh

theorem trim_intercalate_eq_self (M : List Str)
    (h1 : ∀ m ∈ M, m ≠ []) (h2 : ∀ m ∈ M, trim m = m) :
    trim (List.intercalate ['\n'] M) = List.intercalate ['\n'] M := by
  cases M with
  | nil => rfl
  | cons m M' =>
    apply trim_eq_self_of_ends
    · intro a ha
      cases hm : m with
      | nil => exact absurd hm (h1 m (by simp))
      | cons b t =>
        rw [hm, head?_intercalate] at ha
        simp only [Option.mem_def, Option.some.injEq] at ha
        subst ha
        exact head_false_of_trim_eq (hm ▸ h2 m (by simp))
    · intro a ha
      obtain ⟨mlast, hmem, hh⟩ :=
        head_reverse_intercalate (m :: M') h1 (by simp)
      rw [hh] at ha
      cases hml : mlast.reverse with
      | nil =>
        have : mlast = [] := by simpa using congrArg List.reverse hml
        exact absurd this (h1 mlast hmem)
      | cons b t =>
        rw [hml] at ha
        simp only [List.head?_cons, Option.mem_def, Option.some.injEq] at ha
        subst ha
        exact last_false_of_trim_eq (h2 mlast hmem) hml

theorem normalizeOutput_eq_pieces (s : Str) :
    normalizeOutput s = List.intercalate ['\n'] (normalizedPieces s) := rfl

theorem pieces_ne_nil (s : Str) : ∀ m ∈ normalizedPieces s, m ≠ [] := by
  intro m hm
  have := (List.mem_filter.mp hm).2
  exact of_decide_eq_true this

theorem pieces_trimmed (s : Str) : ∀ m ∈ normalizedPieces s, trim m = m := by
  intro m hm
  have := (List.mem_filter.mp hm).1
  obtain ⟨x, _, hx⟩ := List.mem_map.mp this
  rw [← hx]
  exact trim_idem x

theorem pieces_no_newline (s : Str) : ∀ m ∈ normalizedPieces s, '\n' ∉ m := by
  intro m hm hnl
  have := (List.mem_filter.mp hm).1
  obtain ⟨x, hxmem, hx⟩ := List.mem_map.mp this
  have hxin : '\n' ∈ x := mem_of_mem_trim (hx ▸ hnl)
  exact mem_splitOn_not_mem '\n' (trim s) x hxmem hxin

theorem map_trim_eq_self (M : List Str) (h2 : ∀ m ∈ M, trim m = m) :
    M.map trim = M := by
  induction M with
  | nil => rfl
  | cons a t ih =>
    rw [List.map_cons, h2 a (List.mem_cons_self a t),
      ih (fun b hb => h2 b (List.mem_cons_of_mem a hb))]

theorem normalizeOutput_intercalate (M : List Str)
    (h1 : ∀ m ∈ M, m ≠ []) (h2 : ∀ m ∈ M, trim m = m)
    (h3 : ∀ m ∈ M, '\n' ∉ m) :
    normalizeOutput (List.intercalate ['\n'] M) = List.intercalate ['\n'] M := by
  cases M with
  | nil => rfl
  | cons m M' =>
    unfold normalizeOutput
    rw [trim_intercalate_eq_self (m :: M') h1 h2]
    rw [List.splitOn_intercalate (m :: M') '\n' h3 (by simp)]
    rw [map_trim_eq_self (m :: M') h2]
    rw [List.filter_eq_self.mpr (fun a ha => decide_eq_true (h1 a ha))]

/-! Properties of `execute` and the grading pipeline. -/

theorem execute_error_of_run_error (run : RunOutput) (e : Str)
    (h : run.exitCode ≠ 0 ∨ run.stderr ≠ []) :
    (execute run e).status = ExecStatus.error ∧ (execute run e).testsPassed = 0 := by
  unfold execute
  rw [if_pos h]
  exact ⟨rfl, rfl⟩

theorem execute_pass_iff (run : RunOutput) (e : Str) :
    (execute run e).testsPassed = 1 ↔
      (run.exitCode = 0 ∧ run.stderr = [] ∧
        (e ≠ [] → normalizeOutput run.stdout = normalizeOutput e)) := by
  by_cases h1 : run.exitCode ≠ 0 ∨ run.stderr ≠ []
  · have herr := execute_error_of_run_error run e h1
    rw [herr.2]
    constructor
    · intro h; omega
    · rintro ⟨hc, hs, -⟩
      rcases h1 with h | h
      · exact absurd hc h
      · exact absurd hs h
  · push_neg at h1
    obtain ⟨hc, hs⟩ := h1
    have h1' : ¬ (run.exitCode ≠ 0 ∨ run.stderr ≠ []) := by simp [hc, hs]
    by_cases h2 : e ≠ [] ∧ normalizeOutput run.stdout ≠
        (if e ≠ [] then normalizeOutput e else [])
    · have hv : (execute run e).testsPassed = 0 := by
        simp only [execute]
        rw [if_neg h1', if_pos h2]
      rw [hv]
      constructor
      · intro h; omega
      · rintro ⟨-, -, himp⟩
        have := h2.2
        rw [if_pos h2.1] at this
        exact absurd (himp h2.1) this
    · have hv : (execute run e).testsPassed = 1 := by
        simp only [execute]
        rw [if_neg h1', if_neg h2]
      rw [hv]
      refine iff_of_true rfl ⟨hc, hs, fun he => ?_⟩
      by_contra hne
      exact h2 ⟨he, by rw [if_pos he]; exact hne⟩

theorem execute_success_iff_pass (run : RunOutput) (e : Str) :
    (execute run e).status = ExecStatus.success ↔ (execute run e).testsPassed = 1 := by
  by_cases h1 : run.exitCode ≠ 0 ∨ run.stderr ≠ []
  · have hv : execute run e = execute run e := rfl
    have h := execute_error_of_run_error run e h1
    rw [h.1, h.2]
    constructor
    · intro hcon; exact absurd hcon (by intro hx; cases hx)
    · intro hcon; omega
  · have h1' : ¬ (run.exitCode ≠ 0 ∨ run.stderr ≠ []) := h1
    by_cases h2 : e ≠ [] ∧ normalizeOutput run.stdout ≠
        (if e ≠ [] then normalizeOutput e else [])
    · have hs : (execute run e).status = ExecStatus.testFailed := by
        simp only [execute]
        rw [if_neg h1', if_pos h2]
      have hp : (execute run e).testsPassed = 0 := by
        simp only [execute]
        rw [if_neg h1', if_pos h2]
      rw [hs, hp]
      constructor
      · intro hcon; exact absurd hcon (by intro hx; cases hx)
      · intro hcon; omega
    · have hs : (execute run e).status = ExecStatus.success := by
        simp only [execute]
        rw [if_neg h1', if_neg h2]
      have hp : (execute run e).testsPassed = 1 := by
        simp only [execute]
        rw [if_neg h1', if_neg h2]
      rw [hs, hp]
      exact iff_of_true rfl rfl

theorem executeAndSaveCode_accepted_iff (runner : Str → RunOutput)
    (q : CodingQuestion) (table : List HiddenTestCase) :
    (executeAndSaveCode runner q table).status = CodingSubmissionStatus.accepted ↔
      ((sampleExecResult runner q).testsPassed = 1 ∧
        ∀ t ∈ getHiddenTests table, hiddenPass runner t = true) := by
  by_cases hs : (sampleExecResult runner q).testsPassed = 1
  · by_cases hh : 0 < (getHiddenTests table).length
    · by_cases hcp : (getHiddenTests table).countP (hiddenPass runner) =
          (getHiddenTests table).length
      · have hst : (executeAndSaveCode runner q table).status =
            CodingSubmissionStatus.accepted := by
          simp only [executeAndSaveCode, runHiddenTests]
          rw [if_pos hs, if_pos hh, if_pos hcp]
        rw [hst]
        exact iff_of_true rfl ⟨hs, List.countP_eq_length.mp hcp⟩
      · have hst : (executeAndSaveCode runner q table).status =
            CodingSubmissionStatus.error := by
          simp only [executeAndSaveCode, runHiddenTests]
          rw [if_pos hs, if_pos hh, if_neg hcp]
        rw [hst]
        apply iff_of_false
        · intro hx; exact absurd hx (by decide)
        · rintro ⟨-, hall⟩
          exact hcp (List.countP_eq_length.mpr hall)
    · have hnil : getHiddenTests table = [] := by
        have : (getHiddenTests table).length = 0 := by omega
        exact List.length_eq_zero.mp this
      have hsucc : (sampleExecResult runner q).status = ExecStatus.success :=
        (execute_success_iff_pass (runner (sampleStdin q)) q.sample_output).mpr hs
      have hst : (executeAndSaveCode runner q table).status =
          CodingSubmissionStatus.accepted := by
        simp only [executeAndSaveCode, runHiddenTests]
        rw [if_pos hs, if_neg hh, if_pos hsucc]
      rw [hst]
      refine iff_of_true rfl ⟨hs, fun t ht => ?_⟩
      rw [hnil] at ht
      exact absurd ht (List.not_mem_nil t)
  · have hns : (sampleExecResult runner q).status ≠ ExecStatus.success := by
      intro hx
      exact hs ((execute_success_iff_pass (runner (sampleStdin q)) q.sample_output).mp hx)
    have hst : (executeAndSaveCode runner q table).status =
        CodingSubmissionStatus.error := by
      simp only [executeAndSaveCode, runHiddenTests]
      rw [if_neg hs, if_neg hns]
    rw [hst]
    apply iff_of_false
    · intro hx; exact absurd hx (by decide)
    · rintro ⟨hx, -⟩; exact hs hx

theorem normalizeOutput_append_ws (s t : Str) (ht : ∀ c ∈ t, isWS c = true) :
    normalizeOutput (s ++ t) = normalizeOutput s := by
  unfold normalizeOutput
  rw [trim_append_ws s t ht]

/-- C10: `normalizeOutput` is idempotent — for every string `s`,
`normalizeOutput (normalizeOutput s) = normalizeOutput s`, so normalising an
already-normalised output changes nothing. -/
theorem claim_C10_normalizeOutput_idempotent (s : Str) :
    normalizeOutput (normalizeOutput s) = normalizeOutput s := by
  rw [normalizeOutput_eq_pieces s]
  exact normalizeOutput_intercalate (normalizedPieces s) (pieces_ne_nil s)
    (pieces_trimmed s) (pieces_no_newline s)

/-- C7: the grading flow normalises both the expected and the actual output
before the pass/fail comparison: appending a whitespace-only suffix (trailing
whitespace or blank lines) to an output does not change its normalisation;
for a clean run the pass verdict of `execute` compares exactly the normalised
stdout with the normalised expected output; and hence a clean run whose
stdout differs from the expected output only by such a suffix still passes. -/
theorem claim_C7_normalized_comparison (s t e : Str) (run : RunOutput) :
    ((∀ c ∈ t, isWS c = true) → normalizeOutput (s ++ t) = normalizeOutput s)
    ∧ (run.exitCode = 0 → run.stderr = [] → e ≠ [] →
        ((execute run e).status = ExecStatus.success ↔
          normalizeOutput run.stdout = normalizeOutput e))
    ∧ (run.exitCode = 0 → run.stderr = [] → run.stdout = e ++ t →
        (∀ c ∈ t, isWS c = true) →
        (execute run e).status = ExecStatus.success ∧
          (execute run e).testsPassed = 1) := by
  refine ⟨normalizeOutput_append_ws s t, ?_, ?_⟩
  · intro hc hs he
    rw [execute_success_iff_pass, execute_pass_iff]
    constructor
    · rintro ⟨-, -, himp⟩; exact himp he
    · intro hnorm; exact ⟨hc, hs, fun _ => hnorm⟩
  · intro hc hs hst hws
    have hnorm : normalizeOutput run.stdout = normalizeOutput e := by
      rw [hst]
      exact normalizeOutput_append_ws e t hws
    have hp : (execute run e).testsPassed = 1 :=
      (execute_pass_iff run e).mpr ⟨hc, hs, fun _ => hnorm⟩
    exact ⟨(execute_success_iff_pass run e).mpr hp, hp⟩

/-- Witness for C7 at concrete inputs: `"hello \n\n"` normalises like
`"hello"`, and a clean run printing the expected output followed by trailing
whitespace and blank lines still passes. -/
theorem claim_C7_witness :
    normalizeOutput (['h', 'i'] ++ [' ', '\n', '\n']) = normalizeOutput ['h', 'i']
    ∧ (execute ⟨['h', 'i'] ++ [' ', '\n', '\n'], [], 0⟩ ['h', 'i']).status =
        ExecStatus.success
    ∧ (execute ⟨['h', 'i'] ++ [' ', '\n', '\n'], [], 0⟩ ['h', 'i']).testsPassed = 1 := by
  refine ⟨?_, ?_⟩
  · exact (claim_C7_normalized_comparison ['h', 'i'] [' ', '\n', '\n'] ['h', 'i']
      ⟨['h', 'i'] ++ [' ', '\n', '\n'], [], 0⟩).1 (by decide)
  · exact (claim_C7_normalized_comparison ['h', 'i'] [' ', '\n', '\n'] ['h', 'i']
      ⟨['h', 'i'] ++ [' ', '\n', '\n'], [], 0⟩).2.2 rfl rfl rfl (by decide)

/-- C9: a runner report with a non-zero exit code or non-empty stderr forces
status `error` with `testsPassed = 0` (even when the normalised outputs
agree, as the first conjunct is unconditional on stdout); a test passes only
with exit code 0 and empty stderr; and an `accepted` submission requires a
clean exit and empty stderr on the sample run and on every active hidden
test's run. -/
theorem claim_C9_error_dominates (run : RunOutput) (e : Str)
    (runner : Str → RunOutput) (q : CodingQuestion)
    (table : List HiddenTestCase) :
    ((run.exitCode ≠ 0 ∨ run.stderr ≠ []) →
        (execute run e).status = ExecStatus.error ∧ (execute run e).testsPassed = 0)
    ∧ ((execute run e).testsPassed = 1 → run.exitCode = 0 ∧ run.stderr = [])
    ∧ ((executeAndSaveCode runner q table).status = CodingSubmissionStatus.accepted →
        ((runner (sampleStdin q)).exitCode = 0 ∧ (runner (sampleStdin q)).stderr = [] ∧
          ∀ t ∈ getHiddenTests table,
            (runner t.input).exitCode = 0 ∧ (runner t.input).stderr = [])) := by
  refine ⟨execute_error_of_run_error run e, ?_, ?_⟩
  · intro h
    have hr := (execute_pass_iff run e).mp h
    exact ⟨hr.1, hr.2.1⟩
  · intro hacc
    have h := (executeAndSaveCode_accepted_iff runner q table).mp hacc
    have hsample := (execute_pass_iff (runner (sampleStdin q)) q.sample_output).mp h.1
    refine ⟨hsample.1, hsample.2.1, fun t ht => ?_⟩
    have hp := h.2 t ht
    rw [hiddenPass, Bool.and_eq_true, decide_eq_true_eq, decide_eq_true_eq] at hp
    have hr := (execute_pass_iff (runner t.input) t.expected_output).mp hp.2
    exact ⟨hr.1, hr.2.1⟩

/-- Witness for C9 at concrete inputs: a report with non-empty stderr is an
error with zero passed tests although its stdout equals the expected output;
a passing clean report indeed has exit code 0 and empty stderr; and the echo
runner's accepted submission has clean runs everywhere. -/
theorem claim_C9_witness :
    ((execute ⟨['1'], ['e'], 0⟩ ['1']).status = ExecStatus.error ∧
      (execute ⟨['1'], ['e'], 0⟩ ['1']).testsPassed = 0)
    ∧ ((⟨['1'], [], 0⟩ : RunOutput).exitCode = 0 ∧
        (⟨['1'], [], 0⟩ : RunOutput).stderr = [])
    ∧ ((runnerEcho (sampleStdin qSample)).exitCode = 0 ∧
        (runnerEcho (sampleStdin qSample)).stderr = [] ∧
        ∀ t ∈ getHiddenTests hiddenTableEx,
          (runnerEcho t.input).exitCode = 0 ∧ (runnerEcho t.input).stderr = []) := by
  refine ⟨?_, ?_, ?_⟩
  · exact (claim_C9_error_dominates ⟨['1'], ['e'], 0⟩ ['1']
      runnerEcho qSample hiddenTableEx).1 (by decide)
  · exact (claim_C9_error_dominates ⟨['1'], [], 0⟩ ['1']
      runnerEcho qSample hiddenTableEx).2.1 (by decide)
  · exact (claim_C9_error_dominates ⟨['1'], [], 0⟩ ['1']
      runnerEcho qSample hiddenTableEx).2.2 (by decide)

/-- C3: in `executeAndSaveCode`, the persisted status is `accepted` exactly
when the sample test passes and every active hidden test passes (including
the vacuous case of no active hidden tests), and the hidden tests are
executed only after (and exactly when) the sample test passes. -/
theorem claim_C3_accepted_iff_all_pass (runner : Str → RunOutput)
    (q : CodingQuestion) (table : List HiddenTestCase) :
    ((executeAndSaveCode runner q table).status = CodingSubmissionStatus.accepted ↔
      ((sampleExecResult runner q).testsPassed = 1 ∧
        ∀ t ∈ getHiddenTests table, hiddenPass runner t = true))
    ∧ ((sampleExecResult runner q).testsPassed ≠ 1 →
        hiddenTestsExecuted runner q table = [])
    ∧ ((sampleExecResult runner q).testsPassed = 1 →
        hiddenTestsExecuted runner q table = getHiddenTests table) := by
  refine ⟨executeAndSaveCode_accepted_iff runner q table, ?_, ?_⟩
  · intro h
    simp [hiddenTestsExecuted, h]
  · intro h
    simp [hiddenTestsExecuted, h]

/-- Witness for C3 at concrete inputs: with the echo runner, a passing sample
and a single active (passing) hidden test, the submission is accepted and the
executed hidden tests are exactly the active ones; no hidden test runs when
the sample fails. -/
theorem claim_C3_witness :
    (executeAndSaveCode runnerEcho qSample hiddenTableEx).status =
      CodingSubmissionStatus.accepted
    ∧ hiddenTestsExecuted runnerEcho qSample hiddenTableEx =
        getHiddenTests hiddenTableEx := by
  refine ⟨?_, ?_⟩
  · exact (claim_C3_accepted_iff_all_pass runnerEcho qSample hiddenTableEx).1.mpr
      (by decide)
  · exact (claim_C3_accepted_iff_all_pass runnerEcho qSample hiddenTableEx).2.2
      (by decide)

/-! Session timing and re-entry. -/

/-- C6: `calculateRemainingTime` equals `max(0, durationSeconds - (now -
startedAt))`; it is never negative, non-increasing as the current time
advances, and a pure function of the stored timing fields — in particular it
is unaffected by the session's mutable status and mutates nothing. -/
theorem claim_C6_remaining_time (s : TestSession) (t1 t2 : Int)
    (st : SessionStatus) :
    0 ≤ calculateRemainingTime s t1
    ∧ (t1 ≤ t2 → calculateRemainingTime s t2 ≤ calculateRemainingTime s t1)
    ∧ calculateRemainingTime { s with status := st } t1 = calculateRemainingTime s t1
    ∧ calculateRemainingTime s t1 = max 0 (s.durationSeconds - (t1 - s.startedAt)) := by
  refine ⟨le_max_left _ _, ?_, rfl, rfl⟩
  intro h
  exact max_le_max (le_refl 0) (by omega)

/-- Witness for C6 at a concrete session: time left at a later instant is no
more than at an earlier one, and is non-negative. -/
theorem claim_C6_witness :
    calculateRemainingTime expiredSessionEx 9000 ≤
      calculateRemainingTime expiredSessionEx 100
    ∧ 0 ≤ calculateRemainingTime expiredSessionEx 100 :=
  ⟨(claim_C6_remaining_time expiredSessionEx 100 9000 SessionStatus.inProgress).2.1
      (by decide),
    (claim_C6_remaining_time expiredSessionEx 100 9000 SessionStatus.inProgress).1⟩

/-- Counterexample to C1: the re-entry decision embedded from
`initializeTest` violates the claimed guard — at a locked session with
remaining time it enters the editing view instead of redirecting, and at an
expired in-progress session it shows the expired screen instead of
auto-submitting. -/
theorem claim_C1_counterexample : ¬ reentryGuardClaim := by
  intro h
  obtain ⟨i, -, hout⟩ := (h lockedSessionEx 10).1 rfl
  have henter : initializeTestOutcome lockedSessionEx 10 = InitOutcome.enterTest := by
    decide
  rw [henter] at hout
  exact InitOutcome.noConfusion hout

/-- C1 (amended): `initializeTest` never inspects the session's status or
`lockedBySubmissionId`; it only computes the remaining time, and when that is
0 it marks the view time-expired (blocking further editing in the view)
without triggering auto-submit, while any session with remaining time — a
locked one included — is re-opened for editing; no redirect to the results
view ever happens. -/
theorem claim_C1_amended_no_guard (s : TestSession) (now : Int) :
    (calculateRemainingTime s now = 0 →
      initializeTestOutcome s now = InitOutcome.showExpired)
    ∧ (0 < calculateRemainingTime s now →
        initializeTestOutcome s now = InitOutcome.enterTest)
    ∧ (∀ i, initializeTestOutcome s now ≠ InitOutcome.redirectToResults i)
    ∧ initializeTestOutcome s now ≠ InitOutcome.autoSubmitNow
    ∧ (∀ st, initializeTestOutcome { s with status := st } now =
        initializeTestOutcome s now) := by
  refine ⟨?_, ?_, ?_, ?_, fun st => rfl⟩
  · intro h0
    unfold initializeTestOutcome
    rw [if_pos (le_of_eq h0)]
  · intro hpos
    unfold initializeTestOutcome
    rw [if_neg (by omega)]
  · intro i hx
    unfold initializeTestOutcome at hx
    split at hx
    · exact InitOutcome.noConfusion hx
    · exact InitOutcome.noConfusion hx
  · intro hx
    unfold initializeTestOutcome at hx
    split at hx
    · exact InitOutcome.noConfusion hx
    · exact InitOutcome.noConfusion hx

/-- Witness for the amended C1: the expired in-progress session shows the
expired screen, and the locked session with remaining time is entered for
editing. -/
theorem claim_C1_witness :
    initializeTestOutcome expiredSessionEx 9000 = InitOutcome.showExpired
    ∧ initializeTestOutcome lockedSessionEx 10 = InitOutcome.enterTest :=
  ⟨(claim_C1_amended_no_guard expiredSessionEx 9000).1 (by decide),
    (claim_C1_amended_no_guard lockedSessionEx 10).2.1 (by decide)⟩

/-- C2: the persisted total percentage score equals
`round(rawMarks / totalPossibleMarks * 100)` when the total possible marks
are positive and 0 otherwise, where the raw marks are the MCQ auto-graded
score; on the spec's scenario of two 1-mark MCQs with exactly one answered
correctly, `mcq_score = 1` and `total_score = 50`. -/
theorem claim_C2_percentage (questions : List Question)
    (answers : Nat → Option Str) (b : Bool) :
    (0 < totalMarksOf questions →
      (submitTestSubmissionRow questions answers b).total_score =
        jsRound ((autoGradeMCQ questions answers : ℚ) /
          (totalMarksOf questions : ℚ) * 100))
    ∧ (totalMarksOf questions = 0 →
        (submitTestSubmissionRow questions answers b).total_score = 0)
    ∧ (submitTestSubmissionRow twoMcqQuestions oneCorrectAnswers true).mcq_score = 1
    ∧ (submitTestSubmissionRow twoMcqQuestions oneCorrectAnswers true).total_score = 50 := by
  refine ⟨?_, ?_, ?_, ?_⟩
  · intro h
    simp [submitTestSubmissionRow, h]
  · intro h
    simp [submitTestSubmissionRow, h]
  · decide
  · have hm : autoGradeMCQ twoMcqQuestions oneCorrectAnswers = 1 := by decide
    have ht : totalMarksOf twoMcqQuestions = 2 := by decide
    have hpos : 0 < totalMarksOf twoMcqQuestions := by decide
    show (if 0 < totalMarksOf twoMcqQuestions then
        jsRound ((autoGradeMCQ twoMcqQuestions oneCorrectAnswers : ℚ) /
          (totalMarksOf twoMcqQuestions : ℚ) * 100)
      else 0) = 50
    rw [if_pos hpos, hm, ht, jsRound]
    rw [Int.floor_eq_iff]
    constructor
    · norm_num
    · norm_num

/-- Witness for C2: on the concrete two-question scenario the positive-total
branch of the formula applies and yields the persisted 1 and 50. -/
theorem claim_C2_witness :
    (submitTestSubmissionRow twoMcqQuestions oneCorrectAnswers true).total_score =
      jsRound ((autoGradeMCQ twoMcqQuestions oneCorrectAnswers : ℚ) /
        (totalMarksOf twoMcqQuestions : ℚ) * 100)
    ∧ (submitTestSubmissionRow twoMcqQuestions oneCorrectAnswers true).mcq_score = 1
    ∧ (submitTestSubmissionRow twoMcqQuestions oneCorrectAnswers true).total_score = 50 :=
  ⟨(claim_C2_percentage twoMcqQuestions oneCorrectAnswers true).1 (by decide),
    (claim_C2_percentage twoMcqQuestions oneCorrectAnswers true).2.2.1,
    (claim_C2_percentage twoMcqQuestions oneCorrectAnswers true).2.2.2⟩

/-! Submission finaliser sequencing. -/

/-- C4: `submitTest` runs its five steps strictly in order; each later step
starts only after the earlier one succeeded, the first failure aborts all
remaining steps and surfaces the error, the persistent state is exactly what
the last successful step produced (no rollback), no step is silently
skipped, and locking uses the submission id returned by the insert. -/
theorem claim_C4_submit_sequential {σ : Type} (ops : SubmitOps σ) (s0 : σ) :
    (∀ e, ops.completeSession s0 = Except.error e →
      submitTestFlow ops s0 = ([StepName.complete], Except.error (e, s0)))
    ∧ (∀ s1 e, ops.completeSession s0 = Except.ok s1 →
        ops.insertSubmission (ops.scoreAnswers s1) = Except.error e →
        submitTestFlow ops s0 =
          ([StepName.complete, StepName.score, StepName.insertSub],
            Except.error (e, ops.scoreAnswers s1)))
    ∧ (∀ s1 s3 subId e, ops.completeSession s0 = Except.ok s1 →
        ops.insertSubmission (ops.scoreAnswers s1) = Except.ok (s3, subId) →
        ops.lockSession subId s3 = Except.error e →
        submitTestFlow ops s0 =
          ([StepName.complete, StepName.score, StepName.insertSub,
            StepName.lockStep], Except.error (e, s3)))
    ∧ (∀ s1 s3 subId s4 e, ops.completeSession s0 = Except.ok s1 →
        ops.insertSubmission (ops.scoreAnswers s1) = Except.ok (s3, subId) →
        ops.lockSession subId s3 = Except.ok s4 →
        ops.deleteDrafts s4 = Except.error e →
        submitTestFlow ops s0 =
          ([StepName.complete, StepName.score, StepName.insertSub,
            StepName.lockStep, StepName.deleteDraft], Except.error (e, s4)))
    ∧ (∀ s1 s3 subId s4 s5, ops.completeSession s0 = Except.ok s1 →
        ops.insertSubmission (ops.scoreAnswers s1) = Except.ok (s3, subId) →
        ops.lockSession subId s3 = Except.ok s4 →
        ops.deleteDrafts s4 = Except.ok s5 →
        submitTestFlow ops s0 =
          ([StepName.complete, StepName.score, StepName.insertSub,
            StepName.lockStep, StepName.deleteDraft], Except.ok (s5, subId))) := by
  refine ⟨?_, ?_, ?_, ?_, ?_⟩
  · intro e hc
    simp [submitTestFlow, hc]
  · intro s1 e hc hi
    simp [submitTestFlow, hc, hi]
  · intro s1 s3 subId e hc hi hl
    simp [submitTestFlow, hc, hi, hl]
  · intro s1 s3 subId s4 e hc hi hl hd
    simp [submitTestFlow, hc, hi, hl, hd]
  · intro s1 s3 subId s4 s5 hc hi hl hd
    simp [submitTestFlow, hc, hi, hl, hd]

/-- Witness for C4: with the concrete operations over `Nat`, a failing lock
aborts before the draft deletion and keeps the post-insert state, while the
all-succeeding instance runs all five steps in order. -/
theorem claim_C4_witness :
    submitTestFlow opsLockFailEx 0 =
      ([StepName.complete, StepName.score, StepName.insertSub,
        StepName.lockStep], Except.error (['L'], 111))
    ∧ submitTestFlow opsOkEx 0 =
        ([StepName.complete, StepName.score, StepName.insertSub,
          StepName.lockStep, StepName.deleteDraft], Except.ok (11118, 7)) :=
  ⟨(claim_C4_submit_sequential opsLockFailEx 0).2.2.1 1 111 7 ['L'] rfl rfl rfl,
    (claim_C4_submit_sequential opsOkEx 0).2.2.2.2 1 111 7 1118 11118
      rfl rfl rfl rfl⟩

/-! Countdown and auto-submit. -/

theorem timerStep_preserves_inv (st : TimerState) (ev : TimerEvent)
    (h : TimerInv st) : TimerInv (timerStep st ev) := by
  obtain ⟨h1, h2, h3⟩ := h
  cases ev with
  | effectRun =>
    refine ⟨h1, fun ha => ?_, h3⟩
    have ha' : (!st.isTimeExpired && !st.submitting) = true := ha
    by_cases hie : st.isTimeExpired = true
    · rw [hie] at ha'
      simp at ha'
    · exact bool_false_of_not_true hie
  | tick r =>
    by_cases hta : st.timerActive = true
    · by_cases hr : r ≤ 0
      · have hstep : timerStep st (TimerEvent.tick r) =
            { st with
                timerActive := false
                isTimeExpired := true
                submitting := true
                autoSubmitCount := st.autoSubmitCount + 1 } := by
          simp only [timerStep]
          rw [if_pos hta, if_pos hr]
        rw [hstep]
        have hie := h2 hta
        have hc0 := h3 hie
        refine ⟨by show st.autoSubmitCount + 1 ≤ 1; omega, fun ha => ?_, fun hx => ?_⟩
        · exact absurd ha (by simp)
        · exact absurd hx (by simp)
      · have hstep : timerStep st (TimerEvent.tick r) = st := by
          simp only [timerStep]
          rw [if_pos hta, if_neg hr]
        rw [hstep]
        exact ⟨h1, h2, h3⟩
    · have hstep : timerStep st (TimerEvent.tick r) = st := by
        simp only [timerStep]
        rw [if_neg hta]
      rw [hstep]
      exact ⟨h1, h2, h3⟩
  | submitSettled => exact ⟨h1, h2, h3⟩

theorem foldl_timer_inv :
    ∀ (evs : List TimerEvent) (st : TimerState), TimerInv st →
      TimerInv (evs.foldl timerStep st)
  | [], _, h => h
  | e :: evs, st, h =>
    foldl_timer_inv evs (timerStep st e) (timerStep_preserves_inv st e h)

theorem timerStep_count_le (st : TimerState) (ev : TimerEvent) :
    st.autoSubmitCount ≤ (timerStep st ev).autoSubmitCount := by
  cases ev with
  | effectRun => exact le_refl _
  | submitSettled => exact le_refl _
  | tick r =>
    by_cases hta : st.timerActive = true
    · by_cases hr : r ≤ 0
      · simp only [timerStep]
        rw [if_pos hta, if_pos hr]
        exact Nat.le_succ _
      · simp only [timerStep]
        rw [if_pos hta, if_neg hr]
    · simp only [timerStep]
      rw [if_neg hta]

theorem foldl_timer_count_le :
    ∀ (evs : List TimerEvent) (st : TimerState),
      st.autoSubmitCount ≤ (evs.foldl timerStep st).autoSubmitCount
  | [], _ => le_refl _
  | e :: evs, st =>
    le_trans (timerStep_count_le st e) (foldl_timer_count_le evs (timerStep st e))

theorem initialTimerState_inv : TimerInv initialTimerState :=
  ⟨by decide, fun h => by simp [initialTimerState] at h, fun _ => rfl⟩

/-- C5: over every event sequence of the countdown system, auto-submit is
invoked at most once; the countdown effect's guard refuses to register an
interval while a submission is in flight (the local `submitting` guard); and
any zero reading of `calculateRemainingTime` taken while the interval is
registered makes the total number of auto-submit invocations exactly one, no
matter what later ticks, effect re-runs, or submission completions follow. -/
theorem claim_C5_auto_submit_once (evs evs1 evs2 : List TimerEvent) (r : Int)
    (st : TimerState) :
    (runTimer evs).autoSubmitCount ≤ 1
    ∧ (st.submitting = true →
        (timerStep st TimerEvent.effectRun).timerActive = false)
    ∧ (r ≤ 0 → (runTimer evs1).timerActive = true →
        (runTimer (evs1 ++ TimerEvent.tick r :: evs2)).autoSubmitCount = 1) := by
  refine ⟨(foldl_timer_inv evs initialTimerState initialTimerState_inv).1, ?_, ?_⟩
  · intro hsb
    show (!st.isTimeExpired && !st.submitting) = false
    rw [hsb]
    simp
  · intro hr hta
    simp only [runTimer] at hta ⊢
    rw [List.foldl_append, List.foldl_cons]
    have hinv1 : TimerInv (evs1.foldl timerStep initialTimerState) :=
      foldl_timer_inv evs1 initialTimerState initialTimerState_inv
    have hie : (evs1.foldl timerStep initialTimerState).isTimeExpired = false :=
      hinv1.2.1 hta
    have hc0 : (evs1.foldl timerStep initialTimerState).autoSubmitCount = 0 :=
      hinv1.2.2 hie
    have hstep : (timerStep (evs1.foldl timerStep initialTimerState)
        (TimerEvent.tick r)).autoSubmitCount = 1 := by
      simp only [timerStep]
      rw [if_pos hta, if_pos hr]
      show (evs1.foldl timerStep initialTimerState).autoSubmitCount + 1 = 1
      omega
    have hup : (evs2.foldl timerStep (timerStep
        (evs1.foldl timerStep initialTimerState)
        (TimerEvent.tick r))).autoSubmitCount ≤ 1 :=
      (foldl_timer_inv evs2 _ (timerStep_preserves_inv _ _ hinv1)).1
    have hlow := foldl_timer_count_le evs2 (timerStep
        (evs1.foldl timerStep initialTimerState) (TimerEvent.tick r))
    rw [hstep] at hlow
    omega

/-- Witness for C5: a concrete run with a tick at zero and further ticks,
effect re-runs and a completed submission still counts exactly one
auto-submit; and a submitting state refuses interval registration. -/
theorem claim_C5_witness :
    (runTimer [TimerEvent.effectRun, TimerEvent.tick 5]).autoSubmitCount ≤ 1
    ∧ (timerStep ⟨false, false, true, 0⟩ TimerEvent.effectRun).timerActive = false
    ∧ (runTimer ([TimerEvent.effectRun] ++ TimerEvent.tick 0 ::
        [TimerEvent.effectRun, TimerEvent.tick 0, TimerEvent.submitSettled,
          TimerEvent.effectRun, TimerEvent.tick 0])).autoSubmitCount = 1 :=
  ⟨(claim_C5_auto_submit_once [TimerEvent.effectRun, TimerEvent.tick 5]
      [TimerEvent.effectRun]
      [TimerEvent.effectRun, TimerEvent.tick 0, TimerEvent.submitSettled,
        TimerEvent.effectRun, TimerEvent.tick 0] 0 ⟨false, false, true, 0⟩).1,
    (claim_C5_auto_submit_once [TimerEvent.effectRun, TimerEvent.tick 5]
      [TimerEvent.effectRun]
      [TimerEvent.effectRun, TimerEvent.tick 0, TimerEvent.submitSettled,
        TimerEvent.effectRun, TimerEvent.tick 0] 0 ⟨false, false, true, 0⟩).2.1 rfl,
    (claim_C5_auto_submit_once [TimerEvent.effectRun, TimerEvent.tick 5]
      [TimerEvent.effectRun]
      [TimerEvent.effectRun, TimerEvent.tick 0, TimerEvent.submitSettled,
        TimerEvent.effectRun, TimerEvent.tick 0] 0 ⟨false, false, true, 0⟩).2.2
      (by decide) (by decide)⟩

/-! Auto-save scheduling. -/

theorem saveEffect_eq_of_guard (st : SaveState)
    (hc : st.submitting = true ∨ st.answers = []) :
    saveEffect st = { st with intervalActive := false } :=
  if_pos hc

theorem saveEffect_eq_of_save (st : SaveState) (h1 : st.submitting = false)
    (h2 : st.answers ≠ []) :
    saveEffect st =
      { st with intervalActive := true, saves := st.answers :: st.saves } := by
  have hc : ¬ (st.submitting = true ∨ st.answers = []) := by
    rintro (h | h)
    · rw [h1] at h
      exact absurd h (by simp)
    · exact h2 h
  exact if_neg hc

theorem saveEffect_SaveInv (st : SaveState) : SaveInv (saveEffect st) := by
  by_cases hc : st.submitting = true ∨ st.answers = []
  · rw [saveEffect_eq_of_guard st hc]
    intro ha
    exact absurd ha (by simp)
  · push_neg at hc
    have h1 : st.submitting = false := bool_false_of_not_true hc.1
    rw [saveEffect_eq_of_save st h1 hc.2]
    intro _
    exact h1

theorem saveStep_preserves_SaveInv (st : SaveState) (ev : SaveEvent)
    (h : SaveInv st) : SaveInv (saveStep st ev) := by
  cases ev with
  | answersChanged m => exact saveEffect_SaveInv _
  | submitStart => exact saveEffect_SaveInv _
  | submitSettled => exact saveEffect_SaveInv _
  | tick =>
    simp only [saveStep]
    split_ifs with hta
    · intro ha
      exact h ha
    · exact h

theorem foldl_save_inv :
    ∀ (evs : List SaveEvent) (st : SaveState), SaveInv st →
      SaveInv (evs.foldl saveStep st)
  | [], _, h => h
  | e :: evs, st, h =>
    foldl_save_inv evs (saveStep st e) (saveStep_preserves_SaveInv st e h)

/-- C8: the autosave controller persists the full current mapping as a
wholesale overwrite — immediately whenever the mapping changes to a
non-empty value while no submission is in flight (in particular at the
empty-to-non-empty transition, without waiting for a tick), and on every
interval tick while the interval is registered; starting a submission
deregisters the interval without emitting a save, and in every reachable
state a registered interval implies no submission is in flight; the interval
period is the source's 5000 ms. -/
theorem claim_C8_autosave_schedule (st : SaveState) (m : List (Nat × Str))
    (evs : List SaveEvent) :
    (st.submitting = false → m ≠ [] →
      (saveStep st (SaveEvent.answersChanged m)).saves = m :: st.saves
      ∧ (saveStep st (SaveEvent.answersChanged m)).intervalActive = true)
    ∧ (st.intervalActive = true →
        (saveStep st SaveEvent.tick).saves = st.answers :: st.saves)
    ∧ (saveStep st SaveEvent.submitStart).intervalActive = false
    ∧ (saveStep st SaveEvent.submitStart).saves = st.saves
    ∧ ((runSave evs).intervalActive = true → (runSave evs).submitting = false)
    ∧ autoSaveIntervalMillis = 5000 := by
  refine ⟨?_, ?_, ?_, ?_, ?_, rfl⟩
  · intro h1 h2
    have hx := saveEffect_eq_of_save { st with answers := m } h1 h2
    constructor
    · show (saveEffect { st with answers := m }).saves = m :: st.saves
      rw [hx]
    · show (saveEffect { st with answers := m }).intervalActive = true
      rw [hx]
  · intro hta
    simp only [saveStep]
    rw [if_pos hta]
  · have hx := saveEffect_eq_of_guard { st with submitting := true } (Or.inl rfl)
    show (saveEffect { st with submitting := true }).intervalActive = false
    rw [hx]
  · have hx := saveEffect_eq_of_guard { st with submitting := true } (Or.inl rfl)
    show (saveEffect { st with submitting := true }).saves = st.saves
    rw [hx]
  · exact foldl_save_inv evs initialSaveState (fun h => rfl)

/-- Witness for C8: from the initial state, answering one question saves the
one-entry mapping immediately and registers the interval; a registered
interval's tick saves the full mapping; and after a concrete run the
interval-implies-not-submitting invariant is applied. -/
theorem claim_C8_witness :
    (saveStep initialSaveState (SaveEvent.answersChanged [(1, ['A'])])).saves =
      [(1, ['A'])] :: initialSaveState.saves
    ∧ (saveStep sTickEx SaveEvent.tick).saves = sTickEx.answers :: sTickEx.saves
    ∧ (runSave [SaveEvent.answersChanged [(1, ['A'])]]).submitting = false :=
  ⟨((claim_C8_autosave_schedule initialSaveState [(1, ['A'])]
      [SaveEvent.answersChanged [(1, ['A'])]]).1 rfl (by decide)).1,
    (claim_C8_autosave_schedule sTickEx [(1, ['A'])]
      [SaveEvent.answersChanged [(1, ['A'])]]).2.1 rfl,
    (claim_C8_autosave_schedule initialSaveState [(1, ['A'])]
      [SaveEvent.answersChanged [(1, ['A'])]]).2.2.2.2.1 (by decide)⟩
